import Mathlib

/-!
Shallow embedding of the Nim game server (`server.go`, package `main`) and the
retry client (`NewClient/Client.go`).

Boards are Go `[]uint8` values: lists of naturals, each entry `< 256`.
`MoveRow`/`MoveCount` are Go `int8` fields, modelled as `Int`; every Go
conversion (`int8(x)`, `uint8(x)`) and every wrapping `uint8` subtraction is
made explicit with `% 256` arithmetic (`toInt8`, `toUInt8`, `usub8`).
A Go `nil` slice is `none`; `boardOf` maps it to the empty list, matching the
behaviour of `len`/`range`/indexing on a `nil` slice.
Functions that can panic or exit the process return `Option`, with `none` for
the aborting path.
-/

namespace NimServer

/-- Go conversion to `int8` of a `uint8`-producing expression: reduce mod 256,
then reinterpret as a signed two's-complement byte. -/
def toInt8 (n : Nat) : Int :=
  if n % 256 < 128 then (n % 256 : Int) else (n % 256 : Int) - 256

/-- Go conversion `uint8(x)` of a signed integer: two's-complement low byte. -/
def toUInt8 (x : Int) : Nat :=
  (x % 256).toNat

/-- Go `uint8` subtraction `a - b` (wraps mod 256); `b` is already a byte. -/
def usub8 (a b : Nat) : Nat :=
  (a + 256 - b) % 256

/-- `StateMoveMessage` from the source: a game state (a `nil`-able `[]uint8`
board), a pile row and an amount (both `int8`). -/
structure StateMoveMessage where
  GameState : Option (List Nat)
  MoveRow : Int
  MoveCount : Int
deriving DecidableEq

/-- The list a Go slice denotes: `nil` behaves as the empty slice. -/
def boardOf (o : Option (List Nat)) : List Nat :=
  o.getD []

/-- `emptyBoard`: true iff every pile count is 0. -/
def emptyBoard (board : List Nat) : Bool :=
  board.all (fun v => v == 0)

/-- `nimSum`: bitwise XOR across all pile counts. -/
def nimSum (board : List Nat) : Nat :=
  board.foldl (fun s v => s ^^^ v) 0

/-- The scan inside `normalMove`: find the first pile with a positive count,
decrement it; returns the updated board and the index, or `none` if every
pile is 0. -/
def normalMoveAux : List Nat → Option (List Nat × Nat)
  | [] => none
  | v :: rest =>
      if v > 0 then some ((v - 1) :: rest, 0)
      else
        match normalMoveAux rest with
        | some (b, i) => some (v :: b, i + 1)
        | none => none

/-- `normalMove`: take one piece from the first non-empty row; `none` models
the `errors.New ("no move to make")` path. -/
def normalMove (board : List Nat) : Option StateMoveMessage :=
  match normalMoveAux board with
  | some (b, i) => some ⟨some b, toInt8 i, 1⟩
  | none => none

/-- The scan inside `bestMove`: find the first pile `v` with
`sum ^^^ v ≤ v`, replace it by `sum ^^^ v`; returns the updated board, the
index and the amount removed `v - (sum ^^^ v)`. -/
def bestMoveAux (sum : Nat) : List Nat → Option (List Nat × Nat × Nat)
  | [] => none
  | v :: rest =>
      let tmp := sum ^^^ v
      if tmp ≤ v then some (tmp :: rest, 0, v - tmp)
      else
        match bestMoveAux sum rest with
        | some (b, i, c) => some (v :: b, i + 1, c)
        | none => none

/-- `bestMove`: if the nim-sum is nonzero, zero it via the first candidate
pile; otherwise (or if the scan finds no candidate) fall back to
`normalMove`. `none` models the `CheckErr` process exit on the fallback. -/
def bestMove (board : List Nat) : Option StateMoveMessage :=
  let sum := nimSum board
  if sum ≠ 0 then
    match bestMoveAux sum board with
    | some (b, i, c) => some ⟨some b, toInt8 i, toInt8 c⟩
    | none => normalMove board
  else normalMove board

/-- `Play`: resignation sentinel on an empty board, else the strategy chosen
by `mode` (1 = advanced). -/
def Play (move : StateMoveMessage) (mode : Int) : Option StateMoveMessage :=
  let board := boardOf move.GameState
  if emptyBoard board then
    some ⟨none, -2, -2⟩
  else if mode = 1 then
    bestMove board
  else
    normalMove board

/-- `CheckMove incmove lastmove`: the sanity checks (equal lengths, row in
range) followed by the per-row check: every row is unchanged, or is the
declared row with count decreased by exactly `MoveCount`, `0 < MoveCount` and
`MoveCount ≤ int8 (lastboard i)`, the update computed in `uint8` arithmetic
exactly as in the source. -/
def CheckMove (incmove lastmove : StateMoveMessage) : Bool :=
  let lastboard := boardOf lastmove.GameState
  let incboard := boardOf incmove.GameState
  if lastboard.length = incboard.length ∧ 0 ≤ incmove.MoveRow ∧
      incmove.MoveRow < (incboard.length : Int) then
    decide (∀ i < incboard.length,
      incboard.getD i 0 = lastboard.getD i 0 ∨
      ((i : Int) = incmove.MoveRow ∧ 0 < incmove.MoveCount ∧
       incmove.MoveCount ≤ toInt8 (lastboard.getD i 0) ∧
       incboard.getD i 0 = usub8 (lastboard.getD i 0) (toUInt8 incmove.MoveCount)))
  else false

/-- The trailing block of `GenerateBoard`: when the freshly drawn board has
nim-sum 0, increment the last row if below 10, else decrement it, so the
board stays in range and becomes winnable for the client. -/
def adjustBoard (board : List Nat) (numRows : Nat) : List Nat :=
  if nimSum board = 0 then
    if board.getD (numRows - 1) 0 < 10 then
      board.set (numRows - 1) (board.getD (numRows - 1) 0 + 1)
    else
      board.set (numRows - 1) (board.getD (numRows - 1) 0 - 1)
  else board

/-- `GenerateBoard`: `rand.Seed (seed)` then `rand.Intn (14) + 3` rows of
`rand.Intn (10) + 1` coins, then `adjustBoard`. The seeded PRNG is modelled
as the abstract stream `rnd` of its successive draws; `rand.Intn n` draw
number `k` is `rnd k % n`, in `[0, n)` as the Go contract guarantees. -/
def GenerateBoard (rnd : Nat → Nat) : List Nat :=
  let numRows := rnd 0 % 14 + 3
  let board := (List.range numRows).map (fun i => rnd (i + 1) % 10 + 1)
  adjustBoard board numRows

/-- A server-side session for one client address: the last move the server
sent, and the difficulty fixed at game start. -/
structure Session where
  state : StateMoveMessage
  difficulty : Int
deriving DecidableEq

/-- Go `seed & 1` on a signed integer: the two's complement low bit. -/
def lowBit (s : Int) : Int :=
  s % 2

/-- One iteration of the server receive loop for a single client, after a
successful decode: `sess` is the client's entry in `clientGames` (with its
`clientDifficulties` entry), `clientMove` the decoded message. Returns the
reply together with the updated session, or `none` when the datagram is
dropped (no session and not a GameStart) or the process aborts inside
`Play`. `prng seed` is the stream of draws of the PRNG seeded with `seed`. -/
def handleMove (prng : Int → Nat → Nat) (sess : Option Session)
    (clientMove : StateMoveMessage) : Option (StateMoveMessage × Session) :=
  if clientMove.GameState = none ∧ clientMove.MoveRow = -1 then
    let seed := clientMove.MoveCount
    let newGameState := GenerateBoard (prng seed)
    let servMove : StateMoveMessage := ⟨some newGameState, -1, seed⟩
    some (servMove, ⟨servMove, lowBit seed⟩)
  else
    match sess with
    | none => none
    | some s =>
      if CheckMove clientMove s.state then
        (Play clientMove s.difficulty).map
          (fun servMove => (servMove, ⟨servMove, s.difficulty⟩))
      else
        some (s.state, ⟨s.state, s.difficulty⟩)

/-- The loop of the client's `isValidSuccessor`, walking the client's state
from index `idx`; indexing `move.GameState` out of range is the Go runtime
panic, modelled as `none`. -/
def isValidSuccessorAux (move : StateMoveMessage) : Nat → List Nat → Option Bool
  | _, [] => some true
  | idx, elm :: rest =>
      match (boardOf move.GameState).get? idx with
      | none => none
      | some g =>
        if (idx : Int) = move.MoveRow then
          if usub8 elm (toUInt8 move.MoveCount) ≠ g then some false
          else isValidSuccessorAux move (idx + 1) rest
        else
          if elm ≠ g then some false
          else isValidSuccessorAux move (idx + 1) rest

/-- `isValidSuccessor` from `NewClient/Client.go`: for every index of the
client's current `state`, the received board must agree, except at the
declared row where it must equal `state[idx] - uint8 (MoveCount)` in `uint8`
arithmetic; `move.GameState` is indexed without any bounds check. -/
def isValidSuccessor (state : List Nat) (move : StateMoveMessage) : Option Bool :=
  isValidSuccessorAux move 0 state

/-- The board that makes every in-bounds check of `isValidSuccessor` pass:
copy the reply's board, adding back `uint8 (MoveCount)` at the declared
row. -/
def passList (mv : StateMoveMessage) : Nat → List Nat → List Nat
  | _, [] => []
  | idx, g :: rest =>
      (if (idx : Int) = mv.MoveRow then (g + toUInt8 mv.MoveCount) % 256 else g) ::
        passList mv (idx + 1) rest

end NimServer

namespace NimServer

/-! ### XOR and nim-sum lemmas -/

theorem xor_left_comm (a b c : Nat) : a ^^^ (b ^^^ c) = b ^^^ (a ^^^ c) := by
  rw [← Nat.xor_assoc, Nat.xor_comm a b, Nat.xor_assoc]

theorem foldl_xor (l : List Nat) (a : Nat) :
    l.foldl (fun s v => s ^^^ v) a = a ^^^ l.foldl (fun s v => s ^^^ v) 0 := by
  induction l generalizing a with
  | nil => simp
  | cons v t ih =>
    simp only [List.foldl_cons]
    rw [ih (a ^^^ v), ih (0 ^^^ v), Nat.zero_xor, Nat.xor_assoc]

theorem nimSum_nil : nimSum [] = 0 := rfl

theorem nimSum_cons (v : Nat) (t : List Nat) : nimSum (v :: t) = v ^^^ nimSum t := by
  simp only [nimSum, List.foldl_cons]
  rw [foldl_xor, Nat.zero_xor]

theorem nimSum_set (l : List Nat) (i x : Nat) (h : i < l.length) :
    nimSum (l.set i x) = nimSum l ^^^ l.getD i 0 ^^^ x := by
  induction l generalizing i with
  | nil => simp at h
  | cons v t ih =>
    cases i with
    | zero =>
      simp only [List.set, nimSum_cons, List.getD, List.get?_cons_zero, Option.getD_some]
      rw [Nat.xor_comm v (nimSum t), Nat.xor_cancel_right v (nimSum t),
        Nat.xor_comm x (nimSum t)]
    | succ n =>
      simp only [List.length_cons, Nat.succ_lt_succ_iff] at h
      simp only [List.set, nimSum_cons, List.getD_cons_succ, ih n h]
      rw [← Nat.xor_assoc, ← Nat.xor_assoc]

theorem nimSum_testBit_false (b : List Nat) (k : Nat)
    (h : ∀ v ∈ b, v.testBit k = false) : (nimSum b).testBit k = false := by
  induction b with
  | nil => simp [nimSum_nil]
  | cons v t ih =>
    rw [nimSum_cons, Nat.testBit_xor, h v (List.mem_cons_self v t),
      ih (fun w hw => h w (List.mem_cons_of_mem v hw))]
    rfl

theorem exists_mem_testBit (b : List Nat) (k : Nat)
    (h : (nimSum b).testBit k = true) : ∃ v ∈ b, v.testBit k = true := by
  by_contra hc
  push_neg at hc
  have : (nimSum b).testBit k = false := by
    refine nimSum_testBit_false b k (fun v hv => ?_)
    have := hc v hv
    simpa using this
  rw [this] at h
  exact Bool.false_ne_true h

theorem xor_lt_of_msb {S v : Nat} (k : Nat) (hS : S.testBit k = true)
    (hS' : ∀ j, k < j → S.testBit j = false) (hv : v.testBit k = true) :
    v ^^^ S < v := by
  refine Nat.lt_of_testBit k ?_ hv (fun j hj => ?_)
  · rw [Nat.testBit_xor, hv, hS]; rfl
  · rw [Nat.testBit_xor, hS' j hj]; simp

/-- Whenever the nim-sum `S` of a board is nonzero, some pile `v` satisfies
`v ^^^ S < v` (take any pile carrying the most significant bit of `S`). -/
theorem exists_candidate (b : List Nat) (h : nimSum b ≠ 0) :
    ∃ i < b.length, b.getD i 0 ^^^ nimSum b < b.getD i 0 := by
  obtain ⟨k, hk, hk'⟩ := Nat.exists_most_significant_bit h
  obtain ⟨v, hv, hvb⟩ := exists_mem_testBit b k hk
  obtain ⟨⟨i, hi⟩, rfl⟩ := List.mem_iff_get.mp hv
  refine ⟨i, hi, ?_⟩
  have hg : b.getD i 0 = b.get ⟨i, hi⟩ := by
    simp [List.getD_eq_getElem?_getD, List.getElem?_eq_getElem hi]
  rw [hg]
  exact xor_lt_of_msb k hk hk' hvb

/-! ### Specifications of the strategy scans -/

theorem bestMoveAux_spec (sum : Nat) (b : List Nat)
    (h : ∃ j < b.length, sum ^^^ b.getD j 0 ≤ b.getD j 0) :
    ∃ i < b.length, sum ^^^ b.getD i 0 ≤ b.getD i 0 ∧
      (∀ j < i, ¬ sum ^^^ b.getD j 0 ≤ b.getD j 0) ∧
      bestMoveAux sum b =
        some (b.set i (sum ^^^ b.getD i 0), i, b.getD i 0 - (sum ^^^ b.getD i 0)) := by
  induction b with
  | nil =>
    obtain ⟨j, hj, _⟩ := h
    simp at hj
  | cons v t ih =>
    by_cases hv : sum ^^^ v ≤ v
    · refine ⟨0, by simp, by simpa using hv, by omega, ?_⟩
      simp [bestMoveAux, hv]
    · have ht : ∃ j < t.length, sum ^^^ t.getD j 0 ≤ t.getD j 0 := by
        obtain ⟨j, hj, hjc⟩ := h
        cases j with
        | zero => simp at hjc; exact absurd hjc hv
        | succ n =>
          exact ⟨n, by simpa using hj, by simpa using hjc⟩
      obtain ⟨i, hi, hic, hmin, heq⟩ := ih ht
      refine ⟨i + 1, by simpa using hi, by simpa using hic, ?_, ?_⟩
      · intro j hj
        cases j with
        | zero => simpa using hv
        | succ n => simpa using hmin n (by omega)
      · simp [bestMoveAux, hv, heq]

theorem normalMoveAux_spec (b : List Nat)
    (h : ∃ j < b.length, 0 < b.getD j 0) :
    ∃ i < b.length, 0 < b.getD i 0 ∧ (∀ j < i, b.getD j 0 = 0) ∧
      normalMoveAux b = some (b.set i (b.getD i 0 - 1), i) := by
  induction b with
  | nil =>
    obtain ⟨j, hj, _⟩ := h
    simp at hj
  | cons v t ih =>
    by_cases hv : 0 < v
    · refine ⟨0, by simp, by simpa using hv, by omega, ?_⟩
      simp [normalMoveAux, hv]
    · have ht : ∃ j < t.length, 0 < t.getD j 0 := by
        obtain ⟨j, hj, hjc⟩ := h
        cases j with
        | zero => simp at hjc; omega
        | succ n => exact ⟨n, by simpa using hj, by simpa using hjc⟩
      obtain ⟨i, hi, hic, hmin, heq⟩ := ih ht
      refine ⟨i + 1, by simpa using hi, by simpa using hic, ?_, ?_⟩
      · intro j hj
        cases j with
        | zero => simpa using (by omega : v = 0)
        | succ n => simpa using hmin n (by omega)
      · simp [normalMoveAux, hv, heq]

end NimServer

namespace NimServer

/-! ### Characterization of `CheckMove` and byte arithmetic -/

theorem CheckMove_true_iff (inc last : StateMoveMessage) :
    CheckMove inc last = true ↔
      ((boardOf last.GameState).length = (boardOf inc.GameState).length ∧
       0 ≤ inc.MoveRow ∧ inc.MoveRow < ((boardOf inc.GameState).length : Int) ∧
       ∀ i < (boardOf inc.GameState).length,
         (boardOf inc.GameState).getD i 0 = (boardOf last.GameState).getD i 0 ∨
         ((i : Int) = inc.MoveRow ∧ 0 < inc.MoveCount ∧
          inc.MoveCount ≤ toInt8 ((boardOf last.GameState).getD i 0) ∧
          (boardOf inc.GameState).getD i 0 =
            usub8 ((boardOf last.GameState).getD i 0) (toUInt8 inc.MoveCount))) := by
  simp only [CheckMove]
  split_ifs with h
  · simp only [decide_eq_true_eq]
    exact ⟨fun hall => ⟨h.1, h.2.1, h.2.2, hall⟩, fun hh => hh.2.2.2⟩
  · simp only [Bool.false_eq_true, false_iff]
    intro hh
    exact h ⟨hh.1, hh.2.1, hh.2.2.1⟩

/-- What the accepting branch of the per-row check implies, once unwrapped
from byte arithmetic. -/
theorem accept_bounds {old : Nat} {cnt : Int} (h1 : 0 < cnt) (h2 : cnt ≤ toInt8 old) :
    0 < cnt.toNat ∧ cnt.toNat ≤ old % 256 ∧ old % 256 < 128 ∧
      toUInt8 cnt = cnt.toNat ∧
      usub8 old (toUInt8 cnt) = old % 256 - cnt.toNat := by
  unfold toInt8 at h2
  unfold toUInt8 usub8
  split_ifs at h2 with hlt
  · refine ⟨by omega, by omega, hlt, by omega, ?_⟩
    omega
  · omega

/-- The accepting branch forces the new count strictly below the old one. -/
theorem accept_lt {old new : Nat} {cnt : Int} (h1 : 0 < cnt) (h2 : cnt ≤ toInt8 old)
    (h3 : new = usub8 old (toUInt8 cnt)) : new < old := by
  obtain ⟨hc0, hcle, hlt, hcast, hval⟩ := accept_bounds h1 h2
  have : old % 256 ≤ old := Nat.mod_le old 256
  omega

/-- No accepting branch can raise a pile: if the stored count is below the
incoming one, the per-row accept condition is unsatisfiable. -/
theorem no_accept_of_lt {old new : Nat} {cnt : Int} (h : old < new) :
    ¬(0 < cnt ∧ cnt ≤ toInt8 old ∧ new = usub8 old (toUInt8 cnt)) := by
  rintro ⟨h1, h2, h3⟩
  exact absurd (accept_lt h1 h2 h3) (by omega)

/-- On a true `uint8` board (entries below 256, row below 128 as forced by
the `int8` comparison), acceptance means an exact decrement. -/
theorem accept_exact {old new : Nat} {cnt : Int} (hold : old < 256)
    (h1 : 0 < cnt) (h2 : cnt ≤ toInt8 old)
    (h3 : new = usub8 old (toUInt8 cnt)) :
    cnt ≤ (old : Int) ∧ (new : Int) = (old : Int) - cnt := by
  obtain ⟨hc0, hcle, hlt, hcast, hval⟩ := accept_bounds h1 h2
  have hmod : old % 256 = old := Nat.mod_eq_of_lt hold
  omega

theorem toInt8_small {n : Nat} (h : n < 128) : toInt8 n = (n : Int) := by
  unfold toInt8
  have : n % 256 = n := Nat.mod_eq_of_lt (by omega)
  split_ifs with h2 <;> omega

theorem usub8_small {a b : Nat} (hb : b ≤ a) (ha : a < 256) :
    usub8 a b = a - b := by
  unfold usub8
  omega

/-- `CheckMove` acceptance never lets any pile grow. -/
theorem CheckMove_le (inc last : StateMoveMessage) (h : CheckMove inc last = true) :
    ∀ i, (boardOf inc.GameState).getD i 0 ≤ (boardOf last.GameState).getD i 0 := by
  obtain ⟨hlen, hr0, hrlt, hall⟩ := (CheckMove_true_iff inc last).mp h
  intro i
  by_cases hi : i < (boardOf inc.GameState).length
  · rcases hall i hi with heq | ⟨_, hc0, hcle, hval⟩
    · omega
    · exact Nat.le_of_lt (accept_lt hc0 hcle hval)
  · have : (boardOf inc.GameState).getD i 0 = 0 := by
      rw [List.getD_eq_getElem?_getD, List.getElem?_eq_none (by omega)]
      rfl
    omega

/-! ### Emptiness and the strategies -/

theorem emptyBoard_false_iff (b : List Nat) :
    emptyBoard b = false ↔ ∃ j < b.length, 0 < b.getD j 0 := by
  constructor
  · intro h
    have : ¬ ∀ v ∈ b, v = 0 := by
      intro hall
      have : emptyBoard b = true := by
        simp only [emptyBoard, List.all_eq_true]
        intro v hv
        simpa using hall v hv
      simp [this] at h
    push_neg at this
    obtain ⟨v, hv, hv0⟩ := this
    obtain ⟨⟨i, hi⟩, rfl⟩ := List.mem_iff_get.mp hv
    refine ⟨i, hi, ?_⟩
    rw [List.getD_eq_getElem?_getD, List.getElem?_eq_getElem hi]
    simpa using Nat.pos_of_ne_zero hv0
  · rintro ⟨j, hj, hj0⟩
    rcases hb : emptyBoard b with _ | _
    · rfl
    · exfalso
      have hall : ∀ v ∈ b, v = 0 := by
        have := hb
        simp only [emptyBoard, List.all_eq_true] at this
        intro v hv
        simpa using this v hv
      have : b.getD j 0 = 0 := by
        rw [List.getD_eq_getElem?_getD, List.getElem?_eq_getElem hj]
        exact hall _ (List.getElem_mem hj)
      omega

theorem normalMove_spec (b : List Nat) (h : emptyBoard b = false) :
    ∃ i, i < b.length ∧ 0 < b.getD i 0 ∧ (∀ j < i, b.getD j 0 = 0) ∧
      normalMove b = some ⟨some (b.set i (b.getD i 0 - 1)), toInt8 i, 1⟩ := by
  obtain ⟨i, hi, hpos, hmin, heq⟩ :=
    normalMoveAux_spec b ((emptyBoard_false_iff b).mp h)
  exact ⟨i, hi, hpos, hmin, by simp [normalMove, heq]⟩

theorem xor_eq_self_iff (s v : Nat) : s ^^^ v = v ↔ s = 0 := by
  constructor
  · intro h
    have := congrArg (fun x => x ^^^ v) h
    simpa [Nat.xor_assoc, Nat.xor_self, Nat.xor_zero] using this
  · intro h
    simp [h, Nat.zero_xor]

theorem bestMove_spec_nonzero (b : List Nat) (h : nimSum b ≠ 0) :
    ∃ i, i < b.length ∧ nimSum b ^^^ b.getD i 0 < b.getD i 0 ∧
      bestMove b = some ⟨some (b.set i (nimSum b ^^^ b.getD i 0)), toInt8 i,
        toInt8 (b.getD i 0 - (nimSum b ^^^ b.getD i 0))⟩ := by
  have hex : ∃ j < b.length, nimSum b ^^^ b.getD j 0 ≤ b.getD j 0 := by
    obtain ⟨i, hi, hlt⟩ := exists_candidate b h
    exact ⟨i, hi, by rw [Nat.xor_comm]; exact Nat.le_of_lt hlt⟩
  obtain ⟨i, hi, hle, _, heq⟩ := bestMoveAux_spec (nimSum b) b hex
  have hlt : nimSum b ^^^ b.getD i 0 < b.getD i 0 := by
    rcases Nat.lt_or_ge (nimSum b ^^^ b.getD i 0) (b.getD i 0) with h1 | h1
    · exact h1
    · exfalso
      have : nimSum b ^^^ b.getD i 0 = b.getD i 0 := by omega
      exact h ((xor_eq_self_iff _ _).mp this)
  refine ⟨i, hi, hlt, ?_⟩
  simp [bestMove, h, heq]

/-- `Play` on a non-empty board always makes a strict move: one pile strictly
decreases, the rest are untouched. -/
theorem Play_shrinks (m : StateMoveMessage) (d : Int)
    (hne : emptyBoard (boardOf m.GameState) = false) :
    ∃ i x, i < (boardOf m.GameState).length ∧ x < (boardOf m.GameState).getD i 0 ∧
      Play m d = some ⟨some ((boardOf m.GameState).set i x), toInt8 i,
        toInt8 ((boardOf m.GameState).getD i 0 - x)⟩ := by
  set b := boardOf m.GameState with hb
  have hnorm : ∃ i x, i < b.length ∧ x < b.getD i 0 ∧
      normalMove b = some ⟨some (b.set i x), toInt8 i, toInt8 (b.getD i 0 - x)⟩ := by
    obtain ⟨i, hi, hpos, _, heq⟩ := normalMove_spec b hne
    refine ⟨i, b.getD i 0 - 1, hi, by omega, ?_⟩
    have h1 : toInt8 (b.getD i 0 - (b.getD i 0 - 1)) = 1 := by
      have : b.getD i 0 - (b.getD i 0 - 1) = 1 := by omega
      rw [this]
      exact toInt8_small (by omega)
    rw [h1]
    exact heq
  by_cases hd : d = 1
  · by_cases hs : nimSum b = 0
    · obtain ⟨i, x, hi, hx, heq⟩ := hnorm
      refine ⟨i, x, hi, hx, ?_⟩
      simp only [Play, hd, hne, if_pos rfl]
      rw [← hb]
      simp only [Bool.false_eq_true, if_false]
      simpa [bestMove, hs] using heq
    · obtain ⟨i, hi, hlt, heq⟩ := bestMove_spec_nonzero b hs
      refine ⟨i, nimSum b ^^^ b.getD i 0, hi, hlt, ?_⟩
      simp only [Play, hd, hne, if_pos rfl]
      rw [← hb]
      simp only [Bool.false_eq_true, if_false]
      exact heq
  · obtain ⟨i, x, hi, hx, heq⟩ := hnorm
    refine ⟨i, x, hi, hx, ?_⟩
    simp only [Play, hd, hne]
    rw [← hb]
    simp only [Bool.false_eq_true, if_false, if_neg hd]
    exact heq

theorem Play_empty (m : StateMoveMessage) (d : Int)
    (h : emptyBoard (boardOf m.GameState) = true) :
    Play m d = some ⟨none, -2, -2⟩ := by
  simp [Play, h]

end NimServer

namespace NimServer

theorem getD_mem {b : List Nat} {i : Nat} (h : i < b.length) : b.getD i 0 ∈ b := by
  rw [List.getD_eq_getElem?_getD, List.getElem?_eq_getElem h]
  exact List.getElem_mem h

theorem getElem?_eq_of_getD {a b : List Nat} (hlen : b.length = a.length) {n : Nat}
    (hn : n < a.length) (h : a.getD n 0 = b.getD n 0) : a[n]? = b[n]? := by
  rw [List.getElem?_eq_getElem hn, List.getElem?_eq_getElem (by omega)]
  rw [List.getD_eq_getElem?_getD, List.getD_eq_getElem?_getD,
    List.getElem?_eq_getElem hn, List.getElem?_eq_getElem (by omega)] at h
  simpa using h

/-! ### Claim C1 -/

/-- C1 counterexample: on the one-pile board `[128]` (a legal `uint8` board
with nonzero nim-sum), `bestMove` zeroes the pile but reports `MoveCount`
`-128`, not the amount removed `128 - 0`: the `int8` conversion of the
amount wraps. -/
theorem c1_counterexample :
    nimSum [128] ≠ 0 ∧
    bestMove [128] = some ⟨some [0], 0, -128⟩ ∧
    (128 : Int) - 0 ≠ -128 := by
  decide

/-- C1 (amended): for boards of at most 127 piles each at most 127 (so that
the `int8` row and amount do not wrap) with nonzero nim-sum `S`, `bestMove`
finds a pile `i` with `pile i ^^^ S ≤ pile i`, replaces that pile by
`pile i ^^^ S`, reports row `i` and amount `old - new`, and the nim-sum of
the returned board is exactly 0. -/
theorem c1_bestMove_zeroes_nimsum (b : List Nat)
    (hlen : b.length ≤ 127) (hval : ∀ v ∈ b, v ≤ 127) (hS : nimSum b ≠ 0) :
    ∃ i, i < b.length ∧ b.getD i 0 ^^^ nimSum b ≤ b.getD i 0 ∧
      bestMove b = some ⟨some (b.set i (b.getD i 0 ^^^ nimSum b)), (i : Int),
        (b.getD i 0 : Int) - ((b.getD i 0 ^^^ nimSum b : Nat) : Int)⟩ ∧
      nimSum (b.set i (b.getD i 0 ^^^ nimSum b)) = 0 := by
  obtain ⟨i, hi, hlt, heq⟩ := bestMove_spec_nonzero b hS
  have hcomm : nimSum b ^^^ b.getD i 0 = b.getD i 0 ^^^ nimSum b := Nat.xor_comm _ _
  rw [hcomm] at hlt heq
  have hd : b.getD i 0 ≤ 127 := hval _ (getD_mem hi)
  have hrow : toInt8 i = (i : Int) := toInt8_small (by omega)
  have hcnt : toInt8 (b.getD i 0 - (b.getD i 0 ^^^ nimSum b)) =
      (b.getD i 0 : Int) - ((b.getD i 0 ^^^ nimSum b : Nat) : Int) := by
    rw [toInt8_small (by omega), Nat.cast_sub (Nat.le_of_lt hlt)]
  rw [hrow, hcnt] at heq
  refine ⟨i, hi, Nat.le_of_lt hlt, heq, ?_⟩
  rw [nimSum_set _ _ _ hi, Nat.xor_comm (b.getD i 0) (nimSum b), Nat.xor_self]

/-- C1 witness: the amended theorem applied to the board `[1, 2]`. -/
theorem c1_witness :
    ∃ i, i < List.length [1, 2] ∧
      List.getD [1, 2] i 0 ^^^ nimSum [1, 2] ≤ List.getD [1, 2] i 0 ∧
      bestMove [1, 2] = some ⟨some (List.set [1, 2] i (List.getD [1, 2] i 0 ^^^ nimSum [1, 2])),
        (i : Int),
        ((List.getD [1, 2] i 0 : Nat) : Int) - ((List.getD [1, 2] i 0 ^^^ nimSum [1, 2] : Nat) : Int)⟩ ∧
      nimSum (List.set [1, 2] i (List.getD [1, 2] i 0 ^^^ nimSum [1, 2])) = 0 :=
  c1_bestMove_zeroes_nimsum [1, 2] (by decide) (by decide) (by decide)

/-! ### Claim C2 -/

/-- C2: `CheckMove proposed previous` returns false whenever the boards have
different lengths, or the declared row is outside `[0, len)`, or more than
one pile differs, or some differing pile is not the declared row decreased
by exactly `MoveCount` with `0 < MoveCount ≤ previous (row)`. -/
theorem c2_CheckMove_rejects (inc last : StateMoveMessage)
    (hwf : ∀ v ∈ boardOf last.GameState, v < 256)
    (hbad :
      (boardOf last.GameState).length ≠ (boardOf inc.GameState).length ∨
      inc.MoveRow < 0 ∨
      ((boardOf inc.GameState).length : Int) ≤ inc.MoveRow ∨
      (∃ j k, j < (boardOf inc.GameState).length ∧ k < (boardOf inc.GameState).length ∧
        j ≠ k ∧ (boardOf inc.GameState).getD j 0 ≠ (boardOf last.GameState).getD j 0 ∧
        (boardOf inc.GameState).getD k 0 ≠ (boardOf last.GameState).getD k 0) ∨
      (∃ j, j < (boardOf inc.GameState).length ∧
        (boardOf inc.GameState).getD j 0 ≠ (boardOf last.GameState).getD j 0 ∧
        ¬((j : Int) = inc.MoveRow ∧ 0 < inc.MoveCount ∧
          inc.MoveCount ≤ ((boardOf last.GameState).getD j 0 : Int) ∧
          ((boardOf inc.GameState).getD j 0 : Int) =
            ((boardOf last.GameState).getD j 0 : Int) - inc.MoveCount))) :
    CheckMove inc last = false := by
  rcases hck : CheckMove inc last with _ | _
  · rfl
  exfalso
  obtain ⟨hlen, hr0, hrlt, hall⟩ := (CheckMove_true_iff inc last).mp hck
  rcases hbad with h | h | h | h | h
  · exact h hlen
  · omega
  · omega
  · obtain ⟨j, k, hj, hk, hjk, hdj, hdk⟩ := h
    rcases hall j hj with he | ⟨hrj, _, _, _⟩
    · exact hdj he
    rcases hall k hk with he | ⟨hrk, _, _, _⟩
    · exact hdk he
    · apply hjk
      omega
  · obtain ⟨j, hj, hdj, hnot⟩ := h
    rcases hall j hj with he | ⟨hrj, hc0, hcle, hval⟩
    · exact hdj he
    · have hwfj : (boardOf last.GameState).getD j 0 < 256 :=
        hwf _ (getD_mem (by omega))
      obtain ⟨hle, hexact⟩ := accept_exact hwfj hc0 hcle hval
      exact hnot ⟨hrj, hc0, hle, hexact⟩

/-- C2 witness: a proposal whose board length differs from the stored one is
rejected. -/
theorem c2_witness :
    CheckMove ⟨some [1, 1], 0, 1⟩ ⟨some [1], -1, 0⟩ = false :=
  c2_CheckMove_rejects ⟨some [1, 1], 0, 1⟩ ⟨some [1], -1, 0⟩ (by decide)
    (Or.inl (by decide))

/-! ### Claim C3 -/

/-- C3 counterexample: the move with unchanged board `[1]`, declared row 0
(in range) and amount 0 is judged legal by `CheckMove`, although its amount
is not positive: the per-row loop never inspects `MoveCount` when no row
changed. -/
theorem c3_counterexample :
    CheckMove ⟨some [1], 0, 0⟩ ⟨some [1], -1, 5⟩ = true ∧
    (StateMoveMessage.mk (some [1]) 0 0).MoveCount ≤ 0 ∧
    0 ≤ (StateMoveMessage.mk (some [1]) 0 0).MoveRow ∧
    (StateMoveMessage.mk (some [1]) 0 0).MoveRow <
      ((boardOf (StateMoveMessage.mk (some [1]) 0 0).GameState).length : Int) := by
  decide

/-- C3 (amended): a non-GameStart move (row in `[0, len)`) with amount ≤ 0 is
judged illegal whenever its board differs from the previous board; when the
two boards are identical, `CheckMove` accepts the move without ever looking
at the amount. -/
theorem c3_nonpositive_rejected (inc last : StateMoveMessage)
    (hrow0 : 0 ≤ inc.MoveRow)
    (hrowlt : inc.MoveRow < ((boardOf inc.GameState).length : Int))
    (hcnt : inc.MoveCount ≤ 0)
    (hdiff : boardOf inc.GameState ≠ boardOf last.GameState) :
    CheckMove inc last = false := by
  rcases hck : CheckMove inc last with _ | _
  · rfl
  exfalso
  obtain ⟨hlen, _, _, hall⟩ := (CheckMove_true_iff inc last).mp hck
  apply hdiff
  apply List.ext_getElem?
  intro n
  by_cases hn : n < (boardOf inc.GameState).length
  · rcases hall n hn with he | ⟨_, hc0, _, _⟩
    · exact getElem?_eq_of_getD hlen hn he
    · omega
  · rw [List.getElem?_eq_none (by omega), List.getElem?_eq_none (by omega)]

/-- C3 witness: a strict move declared with amount 0 is rejected. -/
theorem c3_witness :
    CheckMove ⟨some [0], 0, 0⟩ ⟨some [1], -1, 5⟩ = false :=
  c3_nonpositive_rejected ⟨some [0], 0, 0⟩ ⟨some [1], -1, 5⟩ (by decide) (by decide)
    (by decide) (by decide)

end NimServer

namespace NimServer

theorem boardOf_some (l : List Nat) : boardOf (some l) = l := rfl

theorem boardOf_none : boardOf none = ([] : List Nat) := rfl

theorem getD_set_self {b : List Nat} {i : Nat} (x : Nat) (h : i < b.length) :
    (b.set i x).getD i 0 = x := by
  rw [List.getD_eq_getElem?_getD, List.getElem?_set]
  simp [h]

theorem getD_set_ne {b : List Nat} {i j : Nat} (x : Nat) (h : i ≠ j) :
    (b.set i x).getD j 0 = b.getD j 0 := by
  rw [List.getD_eq_getElem?_getD, List.getElem?_set, if_neg h,
    ← List.getD_eq_getElem?_getD]

theorem toUInt8_small {c : Nat} (h : c < 256) : toUInt8 (c : Int) = c := by
  unfold toUInt8
  omega

/-! ### Claim C4 -/

/-- C4: if the session's stored state is the server's reply `S = Play m d` to
an accepted client move `m`, a re-delivery of `m` fails `CheckMove` against
`S`, and the handler replies with `S` and leaves the stored state at `S`. -/
theorem c4_duplicate_resend (prng : Int → Nat → Nat) (L m S : StateMoveMessage)
    (d : Int) (hacc : CheckMove m L = true) (hplay : Play m d = some S) :
    CheckMove m S = false ∧
      handleMove prng (some ⟨S, d⟩) m = some (S, ⟨S, d⟩) := by
  obtain ⟨hlen, hr0, hrlt, hall⟩ := (CheckMove_true_iff m L).mp hacc
  have hng : ¬(m.GameState = none ∧ m.MoveRow = -1) := by
    rintro ⟨_, hrow⟩
    omega
  have hiblen : 1 ≤ (boardOf m.GameState).length := by omega
  have hfalse : CheckMove m S = false := by
    rcases hck : CheckMove m S with _ | _
    · rfl
    exfalso
    obtain ⟨hl2, _, _, hall2⟩ := (CheckMove_true_iff m S).mp hck
    by_cases hemp : emptyBoard (boardOf m.GameState) = true
    · rw [Play_empty m d hemp] at hplay
      have hS : S = ⟨none, -2, -2⟩ := (Option.some.inj hplay).symm
      rw [hS, boardOf_none] at hl2
      simp at hl2
      omega
    · obtain ⟨i, x, hi, hx, heq⟩ :=
        Play_shrinks m d (Bool.not_eq_true _ ▸ hemp)
      rw [heq] at hplay
      have hS := (Option.some.inj hplay).symm
      rw [hS] at hall2 hl2
      simp only [boardOf_some] at hall2 hl2
      rcases hall2 i hi with he | ⟨_, hc0, hcle, hval⟩
      · rw [getD_set_self x hi] at he
        omega
      · rw [getD_set_self x hi] at hcle hval
        exact no_accept_of_lt hx ⟨hc0, hcle, hval⟩
  refine ⟨hfalse, ?_⟩
  simp [handleMove, hng, hfalse]

/-- C4 witness: board `[2]`, accepted move to `[1]`, advanced reply `[0]`;
re-delivering the move leaves the session at the reply. -/
theorem c4_witness :
    CheckMove ⟨some [1], 0, 1⟩ ⟨some [0], 0, 1⟩ = false ∧
      handleMove (fun _ _ => 0) (some ⟨⟨some [0], 0, 1⟩, 1⟩) ⟨some [1], 0, 1⟩ =
        some (⟨some [0], 0, 1⟩, ⟨⟨some [0], 0, 1⟩, 1⟩) :=
  c4_duplicate_resend (fun _ _ => 0) ⟨some [2], -1, 5⟩ ⟨some [1], 0, 1⟩
    ⟨some [0], 0, 1⟩ 1 (by decide) (by decide)

/-! ### Claim C5 -/

/-- C5 counterexample: the GameStart sentinel fails `CheckMove` against any
stored state, yet the handler answers it with a freshly generated board and
overwrites both the stored state and the difficulty. -/
theorem c5_counterexample :
    CheckMove ⟨none, -1, 0⟩ ⟨some [2], 0, 1⟩ = false ∧
    handleMove (fun _ _ => 0) (some ⟨⟨some [2], 0, 1⟩, 1⟩) ⟨none, -1, 0⟩ =
      some (⟨some [1, 1, 1], -1, 0⟩, ⟨⟨some [1, 1, 1], -1, 0⟩, 0⟩) ∧
    (⟨some [1, 1, 1], -1, 0⟩ : StateMoveMessage) ≠ ⟨some [2], 0, 1⟩ ∧
    (0 : Int) ≠ 1 := by
  decide

/-- C5 (amended): for every session with stored state `L` and difficulty `d`
and every decodable inbound move that is not the GameStart sentinel and
fails `CheckMove` against `L`, the handler replies with `L` and the stored
state and difficulty are unchanged. -/
theorem c5_invalid_resends_state (prng : Int → Nat → Nat) (L m : StateMoveMessage)
    (d : Int) (hng : ¬(m.GameState = none ∧ m.MoveRow = -1))
    (hck : CheckMove m L = false) :
    handleMove prng (some ⟨L, d⟩) m = some (L, ⟨L, d⟩) := by
  simp [handleMove, hng, hck]

/-- C5 witness: an in-play move with a board that does not match the stored
state is answered with the stored state. -/
theorem c5_witness :
    handleMove (fun _ _ => 0) (some ⟨⟨some [2], -1, 3⟩, 0⟩) ⟨some [5], 0, 1⟩ =
      some (⟨some [2], -1, 3⟩, ⟨⟨some [2], -1, 3⟩, 0⟩) :=
  c5_invalid_resends_state (fun _ _ => 0) ⟨some [2], -1, 3⟩ ⟨some [5], 0, 1⟩ 0
    (by decide) (by decide)

/-! ### Claim C6 -/

/-- C6 counterexample: on the non-empty board `[200]`, `bestMove` reports
`MoveCount` `int8 (200) = -56`, which `CheckMove` rejects against `[200]`. -/
theorem c6_counterexample :
    emptyBoard [200] = false ∧
    bestMove [200] = some ⟨some [0], 0, -56⟩ ∧
    CheckMove ⟨some [0], 0, -56⟩ ⟨some [200], -1, 0⟩ = false := by
  decide

/-- Any exact in-range decrement of one pile of a small board passes
`CheckMove`. -/
theorem checkmove_of_decrement (B : List Nat) (last : StateMoveMessage)
    (hlast : last.GameState = some B) (hlen : B.length ≤ 128)
    (i c : Nat) (hi : i < B.length) (hc0 : 0 < c) (hcle : c ≤ B.getD i 0)
    (hsmall : B.getD i 0 ≤ 127) :
    CheckMove ⟨some (B.set i (B.getD i 0 - c)), toInt8 i, toInt8 c⟩ last = true := by
  have hrow : toInt8 i = (i : Int) := toInt8_small (by omega)
  have hcnt : toInt8 c = (c : Int) := toInt8_small (by omega)
  rw [CheckMove_true_iff]
  simp only [hlast, boardOf_some, hrow, hcnt, List.length_set]
  refine ⟨by simp, by omega, by omega, ?_⟩
  intro j hj
  by_cases hij : i = j
  · subst hij
    right
    refine ⟨rfl, by omega, ?_, ?_⟩
    · rw [toInt8_small (by omega)]
      omega
    · rw [getD_set_self _ hi, toUInt8_small (by omega),
        usub8_small hcle (by omega)]
  · left
    exact getD_set_ne _ hij

theorem bestMove_sum_zero (b : List Nat) (h : nimSum b = 0) :
    bestMove b = normalMove b := by
  simp [bestMove, h]

/-- C6 (amended): for every non-empty board `B` with at most 128 piles, each
at most 127 (so the `int8` row/amount conversions do not wrap), both
`normalMove B` and `bestMove B` produce a move, and each is judged legal by
`CheckMove` against `B` as the previous state. -/
theorem c6_strategy_roundtrip (B : List Nat) (last : StateMoveMessage)
    (hlast : last.GameState = some B)
    (hlen : B.length ≤ 128) (hval : ∀ v ∈ B, v ≤ 127)
    (hne : emptyBoard B = false) :
    (∃ mv, normalMove B = some mv ∧ CheckMove mv last = true) ∧
    (∃ mv, bestMove B = some mv ∧ CheckMove mv last = true) := by
  have hnorm : ∃ mv, normalMove B = some mv ∧ CheckMove mv last = true := by
    obtain ⟨i, hi, hpos, _, heq⟩ := normalMove_spec B hne
    refine ⟨_, heq, ?_⟩
    have h1 : (1 : Int) = toInt8 1 := by decide
    rw [h1]
    exact checkmove_of_decrement B last hlast hlen i 1 hi (by omega) (by omega)
      (hval _ (getD_mem hi))
  refine ⟨hnorm, ?_⟩
  by_cases hs : nimSum B = 0
  · obtain ⟨mv, hmv, hck⟩ := hnorm
    exact ⟨mv, by rw [bestMove_sum_zero B hs]; exact hmv, hck⟩
  · obtain ⟨i, hi, hlt, heq⟩ := bestMove_spec_nonzero B hs
    refine ⟨_, heq, ?_⟩
    have hx : B.set i (nimSum B ^^^ B.getD i 0) =
        B.set i (B.getD i 0 - (B.getD i 0 - (nimSum B ^^^ B.getD i 0))) := by
      have : B.getD i 0 - (B.getD i 0 - (nimSum B ^^^ B.getD i 0)) =
          nimSum B ^^^ B.getD i 0 := by omega
      rw [this]
    rw [hx]
    exact checkmove_of_decrement B last hlast hlen i
      (B.getD i 0 - (nimSum B ^^^ B.getD i 0)) hi (by omega) (by omega)
      (hval _ (getD_mem hi))

/-- C6 witness: the amended theorem applied to the board `[1, 2]`. -/
theorem c6_witness :
    (∃ mv, normalMove [1, 2] = some mv ∧ CheckMove mv ⟨some [1, 2], -1, 0⟩ = true) ∧
    (∃ mv, bestMove [1, 2] = some mv ∧ CheckMove mv ⟨some [1, 2], -1, 0⟩ = true) :=
  c6_strategy_roundtrip [1, 2] ⟨some [1, 2], -1, 0⟩ rfl (by decide) (by decide)
    (by decide)

end NimServer

namespace NimServer

/-! ### Claim C7 -/

theorem adjustBoard_props (b : List Nat) (n : Nat) (hn : n - 1 < b.length)
    (hv : ∀ v ∈ b, 1 ≤ v ∧ v ≤ 10) :
    (adjustBoard b n).length = b.length ∧
    (∀ v ∈ adjustBoard b n, 1 ≤ v ∧ v ≤ 10) ∧
    nimSum (adjustBoard b n) ≠ 0 := by
  have hlast := hv _ (getD_mem hn)
  unfold adjustBoard
  by_cases hs : nimSum b = 0
  · by_cases hl : b.getD (n - 1) 0 < 10
    · rw [if_pos hs, if_pos hl]
      refine ⟨List.length_set b _ _, ?_, ?_⟩
      · intro v hv2
        rcases List.mem_or_eq_of_mem_set hv2 with h | h
        · exact hv _ h
        · omega
      · rw [nimSum_set _ _ _ hn, hs, Nat.zero_xor, Ne, Nat.xor_eq_zero]
        omega
    · rw [if_pos hs, if_neg hl]
      refine ⟨List.length_set b _ _, ?_, ?_⟩
      · intro v hv2
        rcases List.mem_or_eq_of_mem_set hv2 with h | h
        · exact hv _ h
        · omega
      · rw [nimSum_set _ _ _ hn, hs, Nat.zero_xor, Ne, Nat.xor_eq_zero]
        omega
  · rw [if_neg hs]
    exact ⟨rfl, hv, hs⟩

/-- C7: for every stream of PRNG draws, `GenerateBoard` yields between 3 and
16 piles, each pile count between 1 and 10, and the nim-sum of the board is
nonzero (the final increment/decrement of the last pile guarantees this
while keeping the count in range). -/
theorem c7_GenerateBoard_props (rnd : Nat → Nat) :
    3 ≤ (GenerateBoard rnd).length ∧ (GenerateBoard rnd).length ≤ 16 ∧
    (∀ v ∈ GenerateBoard rnd, 1 ≤ v ∧ v ≤ 10) ∧
    nimSum (GenerateBoard rnd) ≠ 0 := by
  have hgen : GenerateBoard rnd =
      adjustBoard ((List.range (rnd 0 % 14 + 3)).map (fun i => rnd (i + 1) % 10 + 1))
        (rnd 0 % 14 + 3) := rfl
  have hv : ∀ v ∈ (List.range (rnd 0 % 14 + 3)).map (fun i => rnd (i + 1) % 10 + 1),
      1 ≤ v ∧ v ≤ 10 := by
    intro v hv
    simp only [List.mem_map] at hv
    obtain ⟨i, _, rfl⟩ := hv
    constructor <;> omega
  have hlen : ((List.range (rnd 0 % 14 + 3)).map (fun i => rnd (i + 1) % 10 + 1)).length =
      rnd 0 % 14 + 3 := by
    simp
  obtain ⟨h1, h2, h3⟩ := adjustBoard_props _ (rnd 0 % 14 + 3) (by omega) hv
  rw [hgen]
  exact ⟨by omega, by omega, h2, h3⟩

/-! ### Claim C8 -/

/-- C8 counterexample: on the board `[1, 1, 1]` with nim-sum 1, both pile 0
and pile 1 (indeed every pile) satisfy `pile i ^^^ S ≤ pile i`, so the
candidate pile is not unique. -/
theorem c8_counterexample :
    nimSum [1, 1, 1] ≠ 0 ∧
    List.getD [1, 1, 1] 0 0 ^^^ nimSum [1, 1, 1] ≤ List.getD [1, 1, 1] 0 0 ∧
    List.getD [1, 1, 1] 1 0 ^^^ nimSum [1, 1, 1] ≤ List.getD [1, 1, 1] 1 0 ∧
    (0 : Nat) ≠ 1 := by
  decide

/-- C8 (amended): for every board with nonzero nim-sum `S`, at least one pile
index `i` satisfies `pile i ^^^ S ≤ pile i` — so `bestMove`'s linear search
can never fail to find a candidate — but the candidate need not be unique. -/
theorem c8_candidate_exists (b : List Nat) (h : nimSum b ≠ 0) :
    (∃ i, i < b.length ∧ b.getD i 0 ^^^ nimSum b ≤ b.getD i 0) ∧
    (bestMoveAux (nimSum b) b).isSome = true := by
  obtain ⟨i, hi, hlt⟩ := exists_candidate b h
  have hex : ∃ j < b.length, nimSum b ^^^ b.getD j 0 ≤ b.getD j 0 :=
    ⟨i, hi, by rw [Nat.xor_comm]; exact Nat.le_of_lt hlt⟩
  obtain ⟨j, hj, hjc, _, heq⟩ := bestMoveAux_spec (nimSum b) b hex
  exact ⟨⟨i, hi, Nat.le_of_lt hlt⟩, by rw [heq]; rfl⟩

/-- C8 witness: the amended theorem applied to the board `[1]`. -/
theorem c8_witness :
    (∃ i, i < List.length [1] ∧ List.getD [1] i 0 ^^^ nimSum [1] ≤ List.getD [1] i 0) ∧
    (bestMoveAux (nimSum [1]) [1]).isSome = true :=
  c8_candidate_exists [1] (by decide)

/-! ### Claim C9 -/

/-- C9 counterexample: when the accepted client move empties the board, the
stored counter-move is the resignation sentinel with a `nil` board, so the
board length of the stored session state changes (1 to 0). -/
theorem c9_counterexample :
    CheckMove ⟨some [0], 0, 1⟩ ⟨some [1], -1, 0⟩ = true ∧
    Play ⟨some [0], 0, 1⟩ 0 = some ⟨none, -2, -2⟩ ∧
    (boardOf (StateMoveMessage.mk none (-2) (-2)).GameState).length ≠
      (boardOf (StateMoveMessage.mk (some [1]) (-1) 0).GameState).length := by
  decide

/-- C9 (amended): along an in-game transition — a move `m` accepted by
`CheckMove` against stored state `L`, whose board is not yet empty, followed
by storing `Play`'s counter-move `S` — the board length is unchanged and no
pile count ever increases: `m` only lowers piles of `L`, and `S` only lowers
piles of `m`. When the accepted move empties the board, the stored reply is
instead the `nil`-board resignation sentinel. -/
theorem c9_monotone_transition (L m S : StateMoveMessage) (d : Int)
    (hacc : CheckMove m L = true)
    (hne : emptyBoard (boardOf m.GameState) = false)
    (hplay : Play m d = some S) :
    (boardOf S.GameState).length = (boardOf L.GameState).length ∧
    (∀ i, (boardOf m.GameState).getD i 0 ≤ (boardOf L.GameState).getD i 0) ∧
    (∀ i, (boardOf S.GameState).getD i 0 ≤ (boardOf m.GameState).getD i 0) := by
  obtain ⟨hlen, _, _, _⟩ := (CheckMove_true_iff m L).mp hacc
  obtain ⟨i, x, hi, hx, heq⟩ := Play_shrinks m d hne
  rw [heq] at hplay
  have hS := (Option.some.inj hplay).symm
  rw [hS]
  simp only [boardOf_some]
  refine ⟨by rw [List.length_set]; omega, CheckMove_le m L hacc, ?_⟩
  intro j
  by_cases hij : i = j
  · subst hij
    rw [getD_set_self x hi]
    omega
  · rw [getD_set_ne x hij]

/-- C9 witness: stored `[2]`, accepted client move to `[1]`, naive
counter-move to `[0]`. -/
theorem c9_witness :
    (boardOf (StateMoveMessage.mk (some [0]) 0 1).GameState).length =
      (boardOf (StateMoveMessage.mk (some [2]) (-1) 0).GameState).length ∧
    (∀ i, (boardOf (StateMoveMessage.mk (some [1]) 0 1).GameState).getD i 0 ≤
      (boardOf (StateMoveMessage.mk (some [2]) (-1) 0).GameState).getD i 0) ∧
    (∀ i, (boardOf (StateMoveMessage.mk (some [0]) 0 1).GameState).getD i 0 ≤
      (boardOf (StateMoveMessage.mk (some [1]) 0 1).GameState).getD i 0) :=
  c9_monotone_transition ⟨some [2], -1, 0⟩ ⟨some [1], 0, 1⟩ ⟨some [0], 0, 1⟩ 0
    (by decide) (by decide) (by decide)

end NimServer

namespace NimServer

/-! ### Claim C10 -/

theorem toUInt8_lt (x : Int) : toUInt8 x < 256 := by
  unfold toUInt8
  omega

theorem passList_length (mv : StateMoveMessage) (idx : Nat) (b : List Nat) :
    (passList mv idx b).length = b.length := by
  induction b generalizing idx with
  | nil => rfl
  | cons g rest ih => simp [passList, ih]

theorem isValidSuccessorAux_isSome (mv : StateMoveMessage) (st : List Nat)
    (idx : Nat) (h : idx + st.length ≤ (boardOf mv.GameState).length) :
    (isValidSuccessorAux mv idx st).isSome = true := by
  induction st generalizing idx with
  | nil => rfl
  | cons e rest ih =>
    have hidx : idx < (boardOf mv.GameState).length := by
      simp only [List.length_cons] at h
      omega
    have hg : (boardOf mv.GameState).get? idx =
        some ((boardOf mv.GameState).get ⟨idx, hidx⟩) := by
      rw [List.get?_eq_getElem?, List.getElem?_eq_getElem hidx]
      rfl
    rw [isValidSuccessorAux]
    simp only [hg]
    have hrec := ih (idx + 1) (by simp only [List.length_cons] at h; omega)
    split_ifs <;> first | rfl | exact hrec

theorem isValidSuccessorAux_panics (mv : StateMoveMessage) (b : List Nat)
    (hwf : ∀ v ∈ boardOf mv.GameState, v < 256) :
    ∀ idx, (boardOf mv.GameState).drop idx = b →
      isValidSuccessorAux mv idx (passList mv idx b ++ [0]) = none := by
  induction b with
  | nil =>
    intro idx hdrop
    have hlen : (boardOf mv.GameState).length ≤ idx := List.drop_eq_nil_iff.mp hdrop
    have hnone : (boardOf mv.GameState).get? idx = none := by
      rw [List.get?_eq_getElem?, List.getElem?_eq_none hlen]
    simp only [passList, List.nil_append]
    rw [isValidSuccessorAux, hnone]
  | cons g rest ih =>
    intro idx hdrop
    have h0 : (boardOf mv.GameState)[idx + 0]? = some g := by
      rw [← List.getElem?_drop, hdrop]
      simp
    have hg : (boardOf mv.GameState).get? idx = some g := by
      rw [List.get?_eq_getElem?]
      simpa using h0
    have hgmem : g ∈ boardOf mv.GameState := List.getElem?_mem (by simpa using h0)
    have hg256 : g < 256 := hwf g hgmem
    have hdrop2 : (boardOf mv.GameState).drop (idx + 1) = rest := by
      have hdd : ((boardOf mv.GameState).drop idx).drop 1 =
          (boardOf mv.GameState).drop (idx + 1) := List.drop_drop 1 idx _
      rw [← hdd, hdrop]
      rfl
    have hrec := ih (idx + 1) hdrop2
    simp only [passList, List.cons_append]
    rw [isValidSuccessorAux]
    simp only [hg]
    by_cases hrow : (idx : Int) = mv.MoveRow
    · rw [if_pos hrow, if_pos hrow]
      have hc := toUInt8_lt mv.MoveCount
      have hval : usub8 ((g + toUInt8 mv.MoveCount) % 256) (toUInt8 mv.MoveCount) = g := by
        unfold usub8
        omega
      rw [if_neg (by rw [hval]; exact fun hne => hne rfl)]
      exact hrec
    · rw [if_neg hrow, if_neg hrow, if_neg (fun hne => hne rfl)]
      exact hrec

/-- C10: `isValidSuccessor state move` indexes `move.GameState` at every
index of `state` with no bounds check: it is panic-free whenever
`move.GameState` is at least as long as `state`, and for every decodable
reply (`uint8` board entries) there is a longer client state on which the
out-of-range access (modelled as `none`) is reached. -/
theorem c10_isValidSuccessor_bounds :
    (∀ (st : List Nat) (mv : StateMoveMessage),
        st.length ≤ (boardOf mv.GameState).length →
        (isValidSuccessor st mv).isSome = true) ∧
    (∀ mv : StateMoveMessage, (∀ v ∈ boardOf mv.GameState, v < 256) →
        ∃ st : List Nat, (boardOf mv.GameState).length < st.length ∧
          isValidSuccessor st mv = none) := by
  constructor
  · intro st mv h
    exact isValidSuccessorAux_isSome mv st 0 (by omega)
  · intro mv hwf
    refine ⟨passList mv 0 (boardOf mv.GameState) ++ [0], ?_, ?_⟩
    · rw [List.length_append, passList_length]
      simp
    · exact isValidSuccessorAux_panics mv (boardOf mv.GameState) hwf 0 (by simp)

/-- C10 witness: a same-length reply is validated without panic, and for the
reply carrying board `[9]` there is a longer client state reaching the
out-of-range access. -/
theorem c10_witness :
    (isValidSuccessor [1, 2] ⟨some [1, 1], 0, 1⟩).isSome = true ∧
    (∃ st : List Nat,
        (boardOf (StateMoveMessage.mk (some [9]) 0 1).GameState).length < st.length ∧
        isValidSuccessor st ⟨some [9], 0, 1⟩ = none) :=
  ⟨c10_isValidSuccessor_bounds.1 [1, 2] ⟨some [1, 1], 0, 1⟩ (by decide),
   c10_isValidSuccessor_bounds.2 ⟨some [9], 0, 1⟩ (by decide)⟩

end NimServer
